import Mathlib

/-!
Shallow embedding of the voice-allocation and signal-generation core of the
`blight-vsti` repository: the sine oscillator and ADSR envelope from
`src/shared/dsp-core/src/lib.rs`, and the 16-voice synth (voice pool, note
dispatch, per-frame mixing) from `src/plugins/sine-synth/src/lib.rs`.

All `f32` fields and arithmetic are modelled as exact rationals.  The two
library functions whose values are irrational — `f32::sin` (with the constant
`PI`) and `midi_to_freq`'s power of two — are abstracted as explicit function
parameters `sinF`, `piQ` and `m2f`: every claim below is about the control and
dataflow structure of the code, never about the numeric value of a sine.
-/

namespace Blight

/-- Embeds `SineOsc` (src/shared/dsp-core/src/lib.rs, lines 8-12). -/
structure SineOsc where
  phase : ℚ
  frequency : ℚ
  sample_rate : ℚ
  deriving DecidableEq

/-- Embeds `SineOsc::new` (dsp-core lines 15-21). -/
def SineOsc.new (sample_rate : ℚ) : SineOsc :=
  { phase := 0, frequency := 440, sample_rate := sample_rate }

/-- Embeds `SineOsc::set_frequency` (dsp-core lines 23-25). -/
def SineOsc.set_frequency (o : SineOsc) (freq : ℚ) : SineOsc :=
  { o with frequency := freq }

/-- Embeds `SineOsc::next_sample` (dsp-core lines 27-34): returns the sine of
the current phase (`(self.phase * 2.0 * PI).sin()`, with the `f32` sine
abstracted as `sinF` and `PI` as `piQ`), then advances the phase by
`frequency / sample_rate` with a single subtract-one wrap when the new phase
reaches 1. -/
def SineOsc.next_sample (sinF : ℚ → ℚ) (piQ : ℚ) (o : SineOsc) : ℚ × SineOsc :=
  let sample := sinF (o.phase * 2 * piQ)
  let phase1 := o.phase + o.frequency / o.sample_rate
  let phase2 := if 1 ≤ phase1 then phase1 - 1 else phase1
  (sample, { o with phase := phase2 })

/-- Embeds `SineOsc::reset` (dsp-core lines 36-38). -/
def SineOsc.reset (o : SineOsc) : SineOsc :=
  { o with phase := 0 }

/-- Embeds `EnvStage` (dsp-core lines 55-62). -/
inductive EnvStage where
  | Idle
  | Attack
  | Decay
  | Sustain
  | Release
  deriving DecidableEq

/-- Embeds `ADSREnvelope` (dsp-core lines 44-53). -/
structure ADSREnvelope where
  attack : ℚ
  decay : ℚ
  sustain : ℚ
  release : ℚ
  stage : EnvStage
  level : ℚ
  sample_rate : ℚ
  deriving DecidableEq

/-- Embeds `ADSREnvelope::new` (dsp-core lines 65-75): attack 0.01, decay 0.1,
sustain 0.7, release 0.2, stage Idle, level 0. -/
def ADSREnvelope.new (sample_rate : ℚ) : ADSREnvelope :=
  { attack := 1/100, decay := 1/10, sustain := 7/10, release := 1/5,
    stage := EnvStage.Idle, level := 0, sample_rate := sample_rate }

/-- Embeds `ADSREnvelope::note_on` (dsp-core lines 77-79). -/
def ADSREnvelope.note_on (e : ADSREnvelope) : ADSREnvelope :=
  { e with stage := EnvStage.Attack }

/-- Embeds `ADSREnvelope::note_off` (dsp-core lines 81-83). -/
def ADSREnvelope.note_off (e : ADSREnvelope) : ADSREnvelope :=
  { e with stage := EnvStage.Release }

/-- Embeds `ADSREnvelope::next_sample` (dsp-core lines 85-114): one sample of
the ADSR state machine, returning the sample value and the updated envelope. -/
def ADSREnvelope.next_sample (e : ADSREnvelope) : ℚ × ADSREnvelope :=
  match e.stage with
  | EnvStage.Idle => (0, e)
  | EnvStage.Attack =>
    let lvl := e.level + 1 / (e.attack * e.sample_rate)
    if 1 ≤ lvl then (1, { e with level := 1, stage := EnvStage.Decay })
    else (lvl, { e with level := lvl })
  | EnvStage.Decay =>
    let lvl := e.level - (1 - e.sustain) / (e.decay * e.sample_rate)
    if lvl ≤ e.sustain then
      (e.sustain, { e with level := e.sustain, stage := EnvStage.Sustain })
    else (lvl, { e with level := lvl })
  | EnvStage.Sustain => (e.sustain, e)
  | EnvStage.Release =>
    let lvl := e.level - e.level / (e.release * e.sample_rate)
    if lvl ≤ 1/1000 then (0, { e with level := 0, stage := EnvStage.Idle })
    else (lvl, { e with level := lvl })

/-- Embeds `ADSREnvelope::is_active` (dsp-core lines 116-118). -/
def ADSREnvelope.is_active (e : ADSREnvelope) : Bool :=
  match e.stage with
  | EnvStage.Idle => false
  | _ => true

/-- Iterates `next_sample`, keeping only the envelope state. -/
def ADSREnvelope.run (e : ADSREnvelope) : ℕ → ADSREnvelope
  | 0 => e
  | n + 1 => (e.next_sample).2.run n

/-- The envelope states reachable from `ADSREnvelope.new sample_rate` by the
public mutators `note_on`, `note_off` and `next_sample`. -/
inductive EnvReachable (sample_rate : ℚ) : ADSREnvelope → Prop where
  | base : EnvReachable sample_rate (ADSREnvelope.new sample_rate)
  | noteOn {e : ADSREnvelope} : EnvReachable sample_rate e →
      EnvReachable sample_rate e.note_on
  | noteOff {e : ADSREnvelope} : EnvReachable sample_rate e →
      EnvReachable sample_rate e.note_off
  | sample {e : ADSREnvelope} : EnvReachable sample_rate e →
      EnvReachable sample_rate (e.next_sample).2

/-- Embeds `MAX_VOICES` (src/plugins/sine-synth/src/lib.rs, line 5). -/
def MAX_VOICES : ℕ := 16

/-- Embeds `Voice` (sine-synth lines 13-19). -/
structure Voice where
  osc : SineOsc
  env : ADSREnvelope
  note : Option ℕ
  velocity : ℚ
  deriving DecidableEq

/-- Embeds the synth state relevant to note dispatch and rendering
(sine-synth lines 7-11): the fixed voice array and the steal cursor. -/
structure SineSynth where
  voices : List Voice
  next_voice : ℕ
  deriving DecidableEq

/-- Embeds the voice pool as built by `SineSynth::default` (sine-synth lines
39-52) and rebuilt by `initialize` (lines 138-150) for a given sample rate:
16 voices, each a fresh oscillator and envelope, no note, velocity 0; steal
cursor 0. -/
def SineSynth.init (sample_rate : ℚ) : SineSynth :=
  { voices := List.replicate MAX_VOICES
      { osc := SineOsc.new sample_rate, env := ADSREnvelope.new sample_rate,
        note := none, velocity := 0 },
    next_voice := 0 }

/-- Embeds `self.voices.iter().position(|v| !v.env.is_active())`: index of the
first voice, in order, whose envelope is inactive. -/
def positionInactive : List Voice → Option ℕ
  | [] => none
  | v :: vs => if v.env.is_active then (positionInactive vs).map (· + 1) else some 0

/-- Embeds `SineSynth::find_free_voice` (sine-synth lines 228-230). -/
def SineSynth.find_free_voice (s : SineSynth) : Option ℕ :=
  positionInactive s.voices

/-- In-place update of the voice at one index, the pure form of
`&mut self.voices[idx]`; indices past the end leave the list unchanged (the
dispatch code only ever uses indices below the pool length). -/
def modifyVoice (f : Voice → Voice) : ℕ → List Voice → List Voice
  | _, [] => []
  | 0, v :: vs => f v :: vs
  | i + 1, v :: vs => v :: modifyVoice f i vs

/-- Embeds the per-voice body of the `NoteOn` arm (sine-synth lines 177-182):
store the note and velocity, set the oscillator frequency from
`midi_to_freq` (abstracted as `m2f`), reset its phase, and send the envelope
note-on. -/
def Voice.trigger (m2f : ℕ → ℚ) (note : ℕ) (velocity : ℚ) (v : Voice) : Voice :=
  { v with
    note := some note
    velocity := velocity
    osc := (v.osc.set_frequency (m2f note)).reset
    env := v.env.note_on }

/-- Embeds the `NoteOn` event arm (sine-synth lines 169-183): use the first
free voice if one exists, otherwise steal the voice at `next_voice` and
advance the cursor modulo `MAX_VOICES`. -/
def SineSynth.note_on_event (m2f : ℕ → ℚ) (note : ℕ) (velocity : ℚ)
    (s : SineSynth) : SineSynth :=
  match s.find_free_voice with
  | some idx => { s with voices := modifyVoice (Voice.trigger m2f note velocity) idx s.voices }
  | none =>
    { voices := modifyVoice (Voice.trigger m2f note velocity) s.next_voice s.voices,
      next_voice := (s.next_voice + 1) % MAX_VOICES }

/-- Embeds the `NoteOff` event arm (sine-synth lines 184-191): every voice
whose stored note equals the event's note is sent envelope note-off. -/
def SineSynth.note_off_event (note : ℕ) (s : SineSynth) : SineSynth :=
  let rel := fun v : Voice =>
    if v.note = some note then { v with env := v.env.note_off } else v
  { s with voices := s.voices.map rel }

/-- Embeds the per-voice body of the mixing loop (sine-synth lines 202-211):
an active voice samples its oscillator once, its envelope once, and
contributes `osc_sample * env_sample * velocity * gain`; an inactive voice is
untouched and contributes 0. -/
def Voice.advance (sinF : ℚ → ℚ) (piQ gain : ℚ) (v : Voice) : Voice × ℚ :=
  if v.env.is_active then
    let oscR := v.osc.next_sample sinF piQ
    let envR := v.env.next_sample
    ({ v with osc := oscR.2, env := envR.2 }, oscR.1 * envR.1 * v.velocity * gain)
  else (v, 0)

/-- Embeds one iteration of the outer render loop with no pending events
(sine-synth lines 198-211): advance the voices in order and accumulate the two
running sums `sample_l` and `sample_r` (each voice adds its contribution to
both).  Voices are mutually independent, so the sequential in-place loop is
the map below. -/
def SineSynth.processFrame (sinF : ℚ → ℚ) (piQ gain : ℚ)
    (s : SineSynth) : SineSynth × ℚ × ℚ :=
  let res := s.voices.map (Voice.advance sinF piQ gain)
  ({ s with voices := res.map Prod.fst },
   ((res.map Prod.snd).sum, (res.map Prod.snd).sum))

/-- Embeds the channel write (sine-synth lines 213-220): even channel indices
receive `sample_l`, odd ones `sample_r`. -/
def frameChannels (numChannels : ℕ) (sample_l sample_r : ℚ) : List ℚ :=
  (List.range numChannels).map (fun ch => if ch % 2 = 0 then sample_l else sample_r)

/-- Embeds `process` over a whole buffer in the case of an empty event queue
(sine-synth lines 161-221 with no events): each frame is one `processFrame`
and its channel write. -/
def SineSynth.render (sinF : ℚ → ℚ) (piQ gain : ℚ) (numChannels : ℕ) :
    ℕ → SineSynth → SineSynth × List (List ℚ)
  | 0, s => (s, [])
  | n + 1, s =>
    let step := s.processFrame sinF piQ gain
    let rest := SineSynth.render sinF piQ gain numChannels n step.1
    (rest.1, frameChannels numChannels step.2.1 step.2.2 :: rest.2)

/-- A concrete stand-in for the abstracted `f32` sine used by fully evaluated
examples; its value is irrelevant to every property proved here. -/
def sinZ : ℚ → ℚ := fun _ => 0

/-- A concrete stand-in for the abstracted `midi_to_freq` used by fully
evaluated examples. -/
def m2fOne : ℕ → ℚ := fun _ => 1

/-- A concrete reachable pool state (sample rate 5): note-on 60, two rendered
frames (the envelope passes Attack and Decay and parks in Sustain), note-off
60, one rendered frame (Release decays 0.7 to 0 in a single step at this
sample rate, entering Idle).  Voice 0 ends with an Idle envelope, level 0, and
its `note` field still `some 60`. -/
def idleHeldPool : SineSynth :=
  (SineSynth.render sinZ 0 1 2 1
    ((SineSynth.render sinZ 0 1 2 2
      ((SineSynth.init 5).note_on_event m2fOne 60 1)).1.note_off_event 60)).1

/-- A single-voice pool holding note 60 in Sustain, for concrete witnesses. -/
def heldVoice : Voice :=
  { osc := SineOsc.new 5,
    env := { ADSREnvelope.new 5 with stage := EnvStage.Sustain, level := 7/10 },
    note := some 60, velocity := 1 }

/-- Voice 0 of `idleHeldPool`, written out: Idle envelope at level 0, yet the
note field still records note 60. -/
def idleHeldVoice : Voice :=
  { osc := { phase := 3/5, frequency := 1, sample_rate := 5 },
    env := { attack := 1/100, decay := 1/10, sustain := 7/10, release := 1/5,
             stage := EnvStage.Idle, level := 0, sample_rate := 5 },
    note := some 60, velocity := 1 }

/-- The envelope state invariant: the ADSR parameters are the constants that
`ADSREnvelope::new` installs (the code never changes them afterwards), the
level is in [0,1], and an Idle envelope has level exactly 0. -/
def EnvInv (sr : ℚ) (e : ADSREnvelope) : Prop :=
  e.attack = 1/100 ∧ e.decay = 1/10 ∧ e.sustain = 7/10 ∧ e.release = 1/5 ∧
    e.sample_rate = sr ∧ 0 ≤ e.level ∧ e.level ≤ 1 ∧
    (e.stage = EnvStage.Idle → e.level = 0)

/-- The forward-only stage step relation claimed by the spec: each stage
either self-loops or advances to the next stage of the ADSR cycle. -/
def stageStepOK : EnvStage → EnvStage → Prop
  | EnvStage.Idle, b => b = EnvStage.Idle
  | EnvStage.Attack, b => b = EnvStage.Attack ∨ b = EnvStage.Decay
  | EnvStage.Decay, b => b = EnvStage.Decay ∨ b = EnvStage.Sustain
  | EnvStage.Sustain, b => b = EnvStage.Sustain
  | EnvStage.Release, b => b = EnvStage.Release ∨ b = EnvStage.Idle

/-- `positionInactive` returns `none` exactly when every voice is active. -/
lemma positionInactive_none_iff (l : List Voice) :
    positionInactive l = none ↔ ∀ v ∈ l, v.env.is_active = true := by
  induction l with
  | nil => simp [positionInactive]
  | cons v vs ih =>
    by_cases h : v.env.is_active
    · simp [positionInactive, h, ih]
    · simp [positionInactive, h]

/-- `positionInactive` returns `some i` exactly when voice `i` is inactive and
every earlier voice is active: it is the smallest such index. -/
lemma positionInactive_some_iff (l : List Voice) (i : ℕ) :
    positionInactive l = some i ↔
      (∃ v, l[i]? = some v ∧ v.env.is_active = false) ∧
        ∀ j, j < i → ∀ w, l[j]? = some w → w.env.is_active = true := by
  induction l generalizing i with
  | nil => simp [positionInactive]
  | cons v vs ih =>
    by_cases h : v.env.is_active
    · cases i with
      | zero =>
        simp [positionInactive, h]
      | succ i' =>
        simp only [positionInactive, if_pos h]
        constructor
        · intro hm
          obtain ⟨k, hk, hk1⟩ := Option.map_eq_some'.1 hm
          have hki : k = i' := by omega
          subst hki
          obtain ⟨⟨w, hw, hw2⟩, hprev⟩ := (ih k).1 hk
          refine ⟨⟨w, by simpa using hw, hw2⟩, ?_⟩
          intro j hj u hu
          cases j with
          | zero =>
            have hv : v = u := by simpa using hu
            subst hv; simpa using h
          | succ j' =>
            exact hprev j' (by omega) u (by simpa using hu)
        · rintro ⟨⟨w, hw, hw2⟩, hprev⟩
          have hvs : positionInactive vs = some i' := by
            refine (ih i').2 ⟨⟨w, by simpa using hw, hw2⟩, ?_⟩
            intro j hj u hu
            exact hprev (j + 1) (by omega) u (by simpa using hu)
          simp [hvs]
    · cases i with
      | zero =>
        constructor
        · intro _
          refine ⟨⟨v, by simp, by simpa using h⟩, ?_⟩
          intro j hj
          exact absurd hj (by omega)
        · intro _
          simp [positionInactive, h]
      | succ i' =>
        simp only [positionInactive, if_neg h]
        constructor
        · intro hc
          exact absurd hc (by simp)
        · rintro ⟨_, hprev⟩
          have hv0 := hprev 0 (by omega) v (by simp)
          exact absurd hv0 (by simpa using h)

/-- C5: for every oscillator state with phase in [0,1) and
0 < frequency < sample rate, `next_sample` leaves the phase in [0,1) — the
single subtract-1 wrap suffices because the per-sample increment
`frequency / sample_rate` is below 1 — and the returned sample is the sine
applied to `phase * 2 * PI` for the phase from before the advance. -/
theorem C5_phase_wrap_invariant (sinF : ℚ → ℚ) (piQ : ℚ) (o : SineOsc)
    (h0 : 0 ≤ o.phase) (h1 : o.phase < 1)
    (hf : 0 < o.frequency) (hfs : o.frequency < o.sample_rate) :
    0 ≤ (o.next_sample sinF piQ).2.phase ∧ (o.next_sample sinF piQ).2.phase < 1 ∧
      (o.next_sample sinF piQ).1 = sinF (o.phase * 2 * piQ) := by
  have hsr : 0 < o.sample_rate := lt_trans hf hfs
  have hinc0 : 0 < o.frequency / o.sample_rate := div_pos hf hsr
  have hinc1 : o.frequency / o.sample_rate < 1 := (div_lt_one hsr).2 hfs
  by_cases h : (1 : ℚ) ≤ o.phase + o.frequency / o.sample_rate
  · refine ⟨?_, ?_, rfl⟩ <;> simp only [SineOsc.next_sample, if_pos h] <;> linarith
  · refine ⟨?_, ?_, rfl⟩ <;> simp only [SineOsc.next_sample, if_neg h] <;> linarith

/-- Witness for C5 at phase 1/2, frequency 1, sample rate 4. -/
theorem C5_phase_wrap_invariant_witness :
    0 ≤ (SineOsc.next_sample sinZ 3 ⟨1/2, 1, 4⟩).2.phase ∧
      (SineOsc.next_sample sinZ 3 ⟨1/2, 1, 4⟩).2.phase < 1 ∧
      (SineOsc.next_sample sinZ 3 ⟨1/2, 1, 4⟩).1 = sinZ ((1/2 : ℚ) * 2 * 3) :=
  C5_phase_wrap_invariant sinZ 3 ⟨1/2, 1, 4⟩ (by norm_num) (by norm_num)
    (by norm_num) (by norm_num)

/-- C6: `find_free_voice` returns the smallest index whose voice's envelope is
inactive (first-fit in index order), and returns `none` exactly when every
voice's envelope is active. -/
theorem C6_find_free_voice_first_fit (s : SineSynth) :
    (∀ i, s.find_free_voice = some i ↔
      (∃ v, s.voices[i]? = some v ∧ v.env.is_active = false) ∧
        ∀ j, j < i → ∀ w, s.voices[j]? = some w → w.env.is_active = true) ∧
    (s.find_free_voice = none ↔ ∀ v ∈ s.voices, v.env.is_active = true) :=
  ⟨fun i => positionInactive_some_iff s.voices i, positionInactive_none_iff s.voices⟩

/-- Witness for C6: on the freshly initialised pool the first-fit scan
returns index 0. -/
theorem C6_find_free_voice_first_fit_witness :
    (SineSynth.init 5).find_free_voice = some 0 :=
  ((C6_find_free_voice_first_fit (SineSynth.init 5)).1 0).2
    ⟨⟨{ osc := SineOsc.new 5, env := ADSREnvelope.new 5, note := none, velocity := 0 },
      rfl, rfl⟩,
     fun j hj => absurd hj (Nat.not_lt_zero j)⟩

/-- C7: a note-off dispatch for note `n` sends note-off (stage set to Release,
everything else untouched) to every voice whose stored note equals `n`, and
leaves every other voice completely unchanged; the steal cursor is untouched. -/
theorem C7_noteoff_releases_exactly_matching (n : ℕ) (s : SineSynth) :
    (s.note_off_event n).next_voice = s.next_voice ∧
    ∀ (i : ℕ) (v : Voice), s.voices[i]? = some v →
      (v.note = some n →
        (s.note_off_event n).voices[i]? =
          some { v with env := { v.env with stage := EnvStage.Release } }) ∧
      (v.note ≠ some n → (s.note_off_event n).voices[i]? = some v) := by
  refine ⟨rfl, ?_⟩
  intro i v hv
  constructor
  · intro hnote
    simp [SineSynth.note_off_event, List.getElem?_map, hv, hnote, ADSREnvelope.note_off]
  · intro hnote
    simp [SineSynth.note_off_event, List.getElem?_map, hv, hnote]

/-- Witness for C7 on a one-voice pool holding note 60. -/
theorem C7_noteoff_releases_exactly_matching_witness :
    (SineSynth.note_off_event 60 ⟨[heldVoice], 0⟩).voices[0]? =
      some { heldVoice with env := { heldVoice.env with stage := EnvStage.Release } } :=
  ((C7_noteoff_releases_exactly_matching 60 ⟨[heldVoice], 0⟩).2 0 heldVoice rfl).1 rfl

/-- C8 counterexample: `idleHeldPool` is a reachable state in which no voice is
audibly active or in release on note 60 (voice 0's envelope is Idle), yet its
stored note is still 60, so the claimed precondition "note 60 is not currently
held" is met while the note-off dispatch still mutates the pool (voice 0's
envelope is sent to Release).  The claim as stated is therefore false. -/
theorem C8_counterexample_idle_voice_still_matches :
    (∀ v ∈ idleHeldPool.voices, ¬(v.note = some 60 ∧ v.env.is_active = true)) ∧
      idleHeldPool.note_off_event 60 ≠ idleHeldPool :=
  ⟨of_decide_eq_true (by with_unfolding_all rfl),
   of_decide_eq_false (by with_unfolding_all rfl)⟩

/-- C8 amended: a note-off for a note number that no voice's *stored note
field* equals (rather than: that no voice audibly holds) is a silent no-op. -/
theorem C8_noteoff_unstored_is_noop (n : ℕ) (s : SineSynth)
    (h : ∀ v ∈ s.voices, v.note ≠ some n) :
    s.note_off_event n = s := by
  have key : ∀ l : List Voice, (∀ v ∈ l, v.note ≠ some n) →
      l.map (fun v => if v.note = some n then { v with env := v.env.note_off } else v) = l := by
    intro l hl
    induction l with
    | nil => rfl
    | cons v vs ih =>
      simp only [List.map_cons]
      rw [if_neg (hl v (List.mem_cons_self v vs)),
        ih (fun w hw => hl w (List.mem_cons_of_mem v hw))]
  simp only [SineSynth.note_off_event]
  rw [key s.voices h]

/-- Witness for the amended C8 on the freshly initialised pool. -/
theorem C8_noteoff_unstored_is_noop_witness :
    (SineSynth.init 5).note_off_event 60 = SineSynth.init 5 :=
  C8_noteoff_unstored_is_noop 60 (SineSynth.init 5)
    (of_decide_eq_true (by with_unfolding_all rfl))

/-- With both running sums zero, the channel write fills every channel of the
frame with zero. -/
lemma frameChannels_zero (m : ℕ) : frameChannels m 0 0 = List.replicate m (0:ℚ) := by
  have h := List.eq_replicate_of_mem
    (show ∀ b ∈ frameChannels m 0 0, b = (0:ℚ) from ?_)
  · simp only [frameChannels, List.length_map, List.length_range] at h
    simp only [frameChannels]
    exact h
  · intro b hb
    simp only [frameChannels, List.mem_map, ite_self] at hb
    obtain ⟨ch, _, hch⟩ := hb
    exact hch.symm

/-- C1: per rendered frame, an active voice is advanced exactly once — its new
oscillator and envelope are one `next_sample` application each — and
contributes `osc_sample * env_sample * velocity * gain`; an inactive voice is
left untouched and contributes nothing; the frame's mono sum is the sum of
the per-voice contributions, the two running sums are identical, every output
channel receives that identical value, and rendering any number of frames
with no events and no active voice leaves the state unchanged and produces an
all-zero buffer. -/
theorem C1_render_frame_mix (sinF : ℚ → ℚ) (piQ gain : ℚ) (s : SineSynth)
    (numChannels n : ℕ) :
    (∀ v : Voice, v.env.is_active = true →
      Voice.advance sinF piQ gain v =
        ({ v with osc := (v.osc.next_sample sinF piQ).2, env := (v.env.next_sample).2 },
          (v.osc.next_sample sinF piQ).1 * (v.env.next_sample).1 * v.velocity * gain)) ∧
    (∀ v : Voice, v.env.is_active = false → Voice.advance sinF piQ gain v = (v, 0)) ∧
    ((s.processFrame sinF piQ gain).1.voices
        = s.voices.map (fun v => (Voice.advance sinF piQ gain v).1) ∧
      (s.processFrame sinF piQ gain).1.next_voice = s.next_voice ∧
      (s.processFrame sinF piQ gain).2.1
        = (s.voices.map (fun v => (Voice.advance sinF piQ gain v).2)).sum ∧
      (s.processFrame sinF piQ gain).2.2 = (s.processFrame sinF piQ gain).2.1) ∧
    (∀ q : ℚ, ∀ x ∈ frameChannels numChannels q q, x = q) ∧
    ((∀ v ∈ s.voices, v.env.is_active = false) →
      SineSynth.render sinF piQ gain numChannels n s
        = (s, List.replicate n (List.replicate numChannels 0))) := by
  refine ⟨?_, ?_, ?_, ?_, ?_⟩
  · intro v hv
    simp [Voice.advance, hv]
  · intro v hv
    simp [Voice.advance, hv]
  · refine ⟨?_, rfl, ?_, rfl⟩
    · simp [SineSynth.processFrame, List.map_map, Function.comp_def]
    · simp [SineSynth.processFrame, List.map_map, Function.comp_def]
  · intro q x hx
    simp only [frameChannels, List.mem_map, ite_self] at hx
    obtain ⟨ch, _, hch⟩ := hx
    exact hch.symm
  · intro hall
    have hframe : s.processFrame sinF piQ gain = (s, 0, 0) := by
      have hmap1 : s.voices.map (Voice.advance sinF piQ gain) =
          s.voices.map (fun v => (v, 0)) :=
        List.map_congr_left (fun v hv => by simp [Voice.advance, hall v hv])
      have hsum : (s.voices.map (Prod.snd ∘ fun v : Voice => (v, (0:ℚ)))).sum = 0 :=
        List.sum_eq_zero (by
          intro x hx
          simp only [List.mem_map, Function.comp_def] at hx
          obtain ⟨v, _, hv⟩ := hx
          exact hv.symm)
      simp only [SineSynth.processFrame, hmap1, List.map_map, Prod.mk.injEq]
      refine ⟨?_, hsum, hsum⟩
      have hid : s.voices.map (Prod.fst ∘ fun v : Voice => (v, (0:ℚ))) = s.voices := by
        simp [Function.comp_def]
      rw [hid]
    induction n with
    | zero => simp [SineSynth.render]
    | succ m ih =>
      simp only [SineSynth.render, hframe, ih, List.replicate_succ, frameChannels_zero]

/-- Witness for C1: an active voice is advanced with the stated contribution,
and three silent frames on the fresh pool give an all-zero 2-channel buffer. -/
theorem C1_render_frame_mix_witness :
    Voice.advance sinZ 0 1 heldVoice =
      ({ heldVoice with
         osc := (heldVoice.osc.next_sample sinZ 0).2
         env := (heldVoice.env.next_sample).2 },
        (heldVoice.osc.next_sample sinZ 0).1 * (heldVoice.env.next_sample).1 *
          heldVoice.velocity * 1) ∧
    SineSynth.render sinZ 0 1 2 3 (SineSynth.init 5)
      = (SineSynth.init 5, List.replicate 3 (List.replicate 2 0)) :=
  ⟨(C1_render_frame_mix sinZ 0 1 (SineSynth.init 5) 2 3).1 heldVoice rfl,
   (C1_render_frame_mix sinZ 0 1 (SineSynth.init 5) 2 3).2.2.2.2
     (of_decide_eq_true (by with_unfolding_all rfl))⟩

/-- C2: a note-on dispatch never fails — if any voice is inactive the
first-fit scan finds a free voice and the steal cursor does not move;
otherwise the voice at the cursor is stolen and the cursor advances to
`(cursor + 1) % MAX_VOICES`; the cursor stays below `MAX_VOICES`; and the
chosen voice gets the note stored, the velocity stored, the oscillator
frequency set from the note-to-frequency conversion, its phase reset to 0,
and its envelope sent note-on. -/
theorem C2_noteon_alloc_and_steal (m2f : ℕ → ℚ) (nt : ℕ) (vel : ℚ) (s : SineSynth) :
    ((∃ v ∈ s.voices, v.env.is_active = false) → ∃ i, s.find_free_voice = some i) ∧
    (∀ i, s.find_free_voice = some i →
      s.note_on_event m2f nt vel =
        { s with voices := modifyVoice (Voice.trigger m2f nt vel) i s.voices } ∧
      (s.note_on_event m2f nt vel).next_voice = s.next_voice ∧
      ∃ v, s.voices[i]? = some v ∧ v.env.is_active = false) ∧
    (s.find_free_voice = none →
      s.note_on_event m2f nt vel =
        { voices := modifyVoice (Voice.trigger m2f nt vel) s.next_voice s.voices,
          next_voice := (s.next_voice + 1) % MAX_VOICES }) ∧
    (s.next_voice < MAX_VOICES → (s.note_on_event m2f nt vel).next_voice < MAX_VOICES) ∧
    (∀ v : Voice,
      (Voice.trigger m2f nt vel v).note = some nt ∧
      (Voice.trigger m2f nt vel v).velocity = vel ∧
      (Voice.trigger m2f nt vel v).osc.frequency = m2f nt ∧
      (Voice.trigger m2f nt vel v).osc.phase = 0 ∧
      (Voice.trigger m2f nt vel v).env = v.env.note_on) := by
  refine ⟨?_, ?_, ?_, ?_, ?_⟩
  · rintro ⟨v, hv, hva⟩
    rcases hfind : s.find_free_voice with _ | i
    · have := (positionInactive_none_iff s.voices).1 hfind v hv
      rw [hva] at this
      exact absurd this (by simp)
    · exact ⟨i, rfl⟩
  · intro i hi
    refine ⟨?_, ?_, ?_⟩
    · simp [SineSynth.note_on_event, hi]
    · simp [SineSynth.note_on_event, hi]
    · exact ((positionInactive_some_iff s.voices i).1 hi).1
  · intro hnone
    simp [SineSynth.note_on_event, hnone]
  · intro hlt
    rcases hfind : s.find_free_voice with _ | i
    · simp only [SineSynth.note_on_event, hfind]
      exact Nat.mod_lt _ (by norm_num [MAX_VOICES])
    · simpa [SineSynth.note_on_event, hfind] using hlt
  · intro v
    exact ⟨rfl, rfl, rfl, rfl, rfl⟩

/-- Witness for C2 on a fully busy one-voice pool: the steal branch fires and
the cursor wraps, staying below capacity. -/
theorem C2_noteon_alloc_and_steal_witness :
    SineSynth.note_on_event m2fOne 60 1 ⟨[heldVoice], 3⟩ =
      { voices := modifyVoice (Voice.trigger m2fOne 60 1) 3 [heldVoice],
        next_voice := (3 + 1) % MAX_VOICES } ∧
    (SineSynth.note_on_event m2fOne 60 1 ⟨[heldVoice], 3⟩).next_voice < MAX_VOICES :=
  ⟨(C2_noteon_alloc_and_steal m2fOne 60 1 ⟨[heldVoice], 3⟩).2.2.1 rfl,
   (C2_noteon_alloc_and_steal m2fOne 60 1 ⟨[heldVoice], 3⟩).2.2.2.1
     (by norm_num [MAX_VOICES])⟩

/-- `next_sample` preserves the envelope invariant for any positive sample
rate: each ramping stage either clamps (to 1, the sustain level, or 0) or
moves by an increment whose sign keeps the level inside [0,1]. -/
lemma envInv_step {sr : ℚ} (hsr : 0 < sr) {e : ADSREnvelope} (h : EnvInv sr e) :
    EnvInv sr (e.next_sample).2 := by
  obtain ⟨h1, h2, h3, h4, h5, h6, h7, h8⟩ := h
  rcases hst : e.stage
  · simp only [ADSREnvelope.next_sample, hst]
    exact ⟨h1, h2, h3, h4, h5, h6, h7, h8⟩
  · simp only [ADSREnvelope.next_sample, hst, h1, h2, h3, h4, h5]
    have hinc : 0 < 1 / ((1:ℚ)/100 * sr) := by positivity
    split_ifs with hc
    · exact ⟨rfl, rfl, rfl, rfl, rfl, by norm_num, by norm_num, fun hx => nomatch hx⟩
    · refine ⟨rfl, rfl, rfl, rfl, rfl, ?_, ?_, fun hx => nomatch hx⟩
      · show 0 ≤ e.level + 1 / (1/100 * sr)
        linarith
      · show e.level + 1 / (1/100 * sr) ≤ 1
        linarith
  · simp only [ADSREnvelope.next_sample, hst, h1, h2, h3, h4, h5]
    have hdec : 0 ≤ ((1:ℚ) - 7/10) / (1/10 * sr) := by positivity
    split_ifs with hc
    · exact ⟨rfl, rfl, rfl, rfl, rfl, by norm_num, by norm_num, fun hx => nomatch hx⟩
    · refine ⟨rfl, rfl, rfl, rfl, rfl, ?_, ?_, fun hx => nomatch hx⟩
      · show 0 ≤ e.level - (1 - 7/10) / (1/10 * sr)
        linarith
      · show e.level - (1 - 7/10) / (1/10 * sr) ≤ 1
        linarith
  · simp only [ADSREnvelope.next_sample, hst]
    exact ⟨h1, h2, h3, h4, h5, h6, h7, h8⟩
  · simp only [ADSREnvelope.next_sample, hst, h1, h2, h3, h4, h5]
    have hrel : 0 ≤ e.level / ((1:ℚ)/5 * sr) := div_nonneg h6 (by positivity)
    split_ifs with hc
    · exact ⟨rfl, rfl, rfl, rfl, rfl, le_refl 0, by norm_num, fun _ => rfl⟩
    · push_neg at hc
      refine ⟨rfl, rfl, rfl, rfl, rfl, ?_, ?_, fun hx => nomatch hx⟩
      · show 0 ≤ e.level - e.level / (1/5 * sr)
        linarith
      · show e.level - e.level / (1/5 * sr) ≤ 1
        linarith

/-- Every reachable envelope state satisfies the invariant. -/
lemma envInv_of_reachable {sr : ℚ} (hsr : 0 < sr) {e : ADSREnvelope}
    (h : EnvReachable sr e) : EnvInv sr e := by
  induction h with
  | base =>
    refine ⟨rfl, rfl, rfl, rfl, rfl, le_refl 0, ?_, fun _ => rfl⟩
    show (0:ℚ) ≤ 1
    norm_num
  | noteOn h ih =>
    obtain ⟨h1, h2, h3, h4, h5, h6, h7, h8⟩ := ih
    exact ⟨h1, h2, h3, h4, h5, h6, h7, fun hx => nomatch hx⟩
  | noteOff h ih =>
    obtain ⟨h1, h2, h3, h4, h5, h6, h7, h8⟩ := ih
    exact ⟨h1, h2, h3, h4, h5, h6, h7, fun hx => nomatch hx⟩
  | sample h ih =>
    exact envInv_step hsr ih

/-- The value returned by `next_sample` lies in [0,1] whenever the envelope
satisfies the invariant: each branch returns 0, 1, the sustain constant, or
the freshly clamped level. -/
lemma env_next_sample_bounds {sr : ℚ} (hsr : 0 < sr) {e : ADSREnvelope}
    (h : EnvInv sr e) :
    0 ≤ (e.next_sample).1 ∧ (e.next_sample).1 ≤ 1 := by
  obtain ⟨h1, h2, h3, h4, h5, h6, h7, h8⟩ := h
  rcases hst : e.stage
  · simp only [ADSREnvelope.next_sample, hst]
    exact ⟨by norm_num, by norm_num⟩
  · simp only [ADSREnvelope.next_sample, hst, h1, h2, h3, h4, h5]
    have hinc : 0 < 1 / ((1:ℚ)/100 * sr) := by positivity
    split_ifs with hc
    · exact ⟨by norm_num, by norm_num⟩
    · refine ⟨?_, ?_⟩
      · show 0 ≤ e.level + 1 / (1/100 * sr)
        linarith
      · show e.level + 1 / (1/100 * sr) ≤ 1
        linarith
  · simp only [ADSREnvelope.next_sample, hst, h1, h2, h3, h4, h5]
    have hdec : 0 ≤ ((1:ℚ) - 7/10) / (1/10 * sr) := by positivity
    split_ifs with hc
    · exact ⟨by norm_num, by norm_num⟩
    · refine ⟨?_, ?_⟩
      · show 0 ≤ e.level - (1 - 7/10) / (1/10 * sr)
        linarith
      · show e.level - (1 - 7/10) / (1/10 * sr) ≤ 1
        linarith
  · simp only [ADSREnvelope.next_sample, hst, h3]
    exact ⟨by norm_num, by norm_num⟩
  · simp only [ADSREnvelope.next_sample, hst, h1, h2, h3, h4, h5]
    have hrel : 0 ≤ e.level / ((1:ℚ)/5 * sr) := div_nonneg h6 (by positivity)
    split_ifs with hc
    · exact ⟨by norm_num, by norm_num⟩
    · push_neg at hc
      refine ⟨?_, ?_⟩
      · show 0 ≤ e.level - e.level / (1/5 * sr)
        linarith
      · show e.level - e.level / (1/5 * sr) ≤ 1
        linarith

/-- C3: for every reachable envelope state (built with the fixed positive
attack/decay/release and sustain that the code constructs) and any positive
sample rate, `next_sample` returns a value in [0,1] and leaves the stored
level in [0,1]. -/
theorem C3_env_sample_in_unit_interval (sr : ℚ) (e : ADSREnvelope) (hsr : 0 < sr)
    (h : EnvReachable sr e) :
    (0 ≤ (e.next_sample).1 ∧ (e.next_sample).1 ≤ 1) ∧
      0 ≤ (e.next_sample).2.level ∧ (e.next_sample).2.level ≤ 1 := by
  have hi := envInv_of_reachable hsr h
  have hi2 := envInv_step hsr hi
  exact ⟨env_next_sample_bounds hsr hi, hi2.2.2.2.2.2.1, hi2.2.2.2.2.2.2.1⟩

/-- Witness for C3: the first Attack sample of a freshly triggered envelope
at sample rate 5. -/
theorem C3_env_sample_in_unit_interval_witness :
    (0 ≤ (((ADSREnvelope.new 5).note_on).next_sample).1 ∧
      (((ADSREnvelope.new 5).note_on).next_sample).1 ≤ 1) ∧
      0 ≤ (((ADSREnvelope.new 5).note_on).next_sample).2.level ∧
      (((ADSREnvelope.new 5).note_on).next_sample).2.level ≤ 1 :=
  C3_env_sample_in_unit_interval 5 ((ADSREnvelope.new 5).note_on) (by norm_num)
    (EnvReachable.noteOn EnvReachable.base)

/-- C9: for every reachable envelope state the stage is Idle exactly when the
level is 0 and `is_active` is false. -/
theorem C9_idle_iff_level_zero_inactive (sr : ℚ) (e : ADSREnvelope) (hsr : 0 < sr)
    (h : EnvReachable sr e) :
    e.stage = EnvStage.Idle ↔ (e.level = 0 ∧ e.is_active = false) := by
  have hi := envInv_of_reachable hsr h
  constructor
  · intro hid
    exact ⟨hi.2.2.2.2.2.2.2 hid, by simp [ADSREnvelope.is_active, hid]⟩
  · rintro ⟨-, hact⟩
    rcases hst : e.stage <;>
      simp [ADSREnvelope.is_active, hst] at hact ⊢

/-- Witness for C9 on the freshly constructed envelope. -/
theorem C9_idle_iff_level_zero_inactive_witness :
    (ADSREnvelope.new 5).stage = EnvStage.Idle ↔
      ((ADSREnvelope.new 5).level = 0 ∧ (ADSREnvelope.new 5).is_active = false) :=
  C9_idle_iff_level_zero_inactive 5 (ADSREnvelope.new 5) (by norm_num)
    EnvReachable.base

/-- Indexing after `modifyVoice`: position `j` is mapped through `f`, every
other position is unchanged. -/
lemma modifyVoice_getElem? (f : Voice → Voice) (j : ℕ) (l : List Voice) (i : ℕ) :
    (modifyVoice f j l)[i]? = if i = j then (l[i]?).map f else l[i]? := by
  induction l generalizing i j with
  | nil => simp [modifyVoice]
  | cons v vs ih =>
    cases j with
    | zero =>
      cases i with
      | zero => simp [modifyVoice]
      | succ i' => simp [modifyVoice]
    | succ j' =>
      cases i with
      | zero => simp [modifyVoice]
      | succ i' => simpa [modifyVoice] using ih j' i'

/-- C10: a voice's stored note is never cleared back to `none` — note-off and
rendering preserve every voice's note field, and note-on either leaves a
voice's note unchanged or overwrites it with the new note — so a voice whose
envelope has gone Idle still carries its last note, and a later note-off for
that number mutates the idle voice: its envelope stage becomes Release and
`is_active` turns true again (and, the level being 0, the next envelope
sample immediately returns it to inactive). -/
theorem C10_note_never_cleared (m2f : ℕ → ℚ) (sinF : ℚ → ℚ) (piQ gain vel : ℚ)
    (nt n k nch : ℕ) (s : SineSynth) :
    ((s.note_off_event n).voices.map Voice.note = s.voices.map Voice.note) ∧
    (((SineSynth.render sinF piQ gain nch k s).1.voices).map Voice.note
        = s.voices.map Voice.note) ∧
    (∀ i : ℕ, ((s.note_on_event m2f nt vel).voices[i]?).map Voice.note
        = (s.voices[i]?).map Voice.note ∨
      ((s.note_on_event m2f nt vel).voices[i]?).map Voice.note = some (some nt)) ∧
    (∀ (i : ℕ) (v : Voice), s.voices[i]? = some v →
      v.env.is_active = false → v.note = some n →
      ∃ w, (s.note_off_event n).voices[i]? = some w ∧
        w.env.stage = EnvStage.Release ∧ w.env.is_active = true ∧
        (v.env.level = 0 → ((w.env.next_sample).2).is_active = false)) := by
  refine ⟨?_, ?_, ?_, ?_⟩
  · simp only [SineSynth.note_off_event, List.map_map]
    refine List.map_congr_left ?_
    intro v hv
    by_cases h : v.note = some n <;> simp [h]
  · induction k generalizing s with
    | zero => simp [SineSynth.render]
    | succ m ih =>
      have hframe : ((s.processFrame sinF piQ gain).1.voices).map Voice.note
          = s.voices.map Voice.note := by
        simp only [SineSynth.processFrame, List.map_map]
        refine List.map_congr_left ?_
        intro v hv
        by_cases h : v.env.is_active <;> simp [Voice.advance, h, Function.comp_def]
      simp only [SineSynth.render]
      rw [ih ((s.processFrame sinF piQ gain).1), hframe]
  · intro i
    rcases hfind : s.find_free_voice with _ | idx <;>
      simp only [SineSynth.note_on_event, hfind, modifyVoice_getElem?]
    · by_cases hij : i = s.next_voice
      · rcases hv : s.voices[i]? with _ | v
        · left; simp [hij, hv]
        · right; simp [hij, hv, Voice.trigger]
      · left; simp [hij]
    · by_cases hij : i = idx
      · rcases hv : s.voices[i]? with _ | v
        · left; simp [hij, hv]
        · right; simp [hij, hv, Voice.trigger]
      · left; simp [hij]
  · intro i v hv hinact hnote
    refine ⟨{ v with env := { v.env with stage := EnvStage.Release } }, ?_, rfl, rfl, ?_⟩
    · simp [SineSynth.note_off_event, List.getElem?_map, hv, hnote, ADSREnvelope.note_off]
    · intro hlev
      simp [ADSREnvelope.next_sample, ADSREnvelope.is_active, hlev]

/-- Witness for C10: dispatching note-off 60 on `idleHeldPool` mutates the
idle voice 0, whose envelope becomes Release and active again. -/
theorem C10_note_never_cleared_witness :
    ∃ w, (idleHeldPool.note_off_event 60).voices[0]? = some w ∧
      w.env.stage = EnvStage.Release ∧ w.env.is_active = true ∧
      (idleHeldVoice.env.level = 0 → ((w.env.next_sample).2).is_active = false) :=
  (C10_note_never_cleared m2fOne sinZ 0 1 1 60 60 2 2 idleHeldPool).2.2.2
    0 idleHeldVoice (by with_unfolding_all rfl) rfl rfl

/-- Iterating the envelope splits over addition of step counts. -/
lemma run_add (e : ADSREnvelope) (a b : ℕ) : e.run (a + b) = (e.run a).run b := by
  induction a generalizing e with
  | zero => simp [ADSREnvelope.run, Nat.zero_add]
  | succ m ih =>
    have h1 : m + 1 + b = (m + b) + 1 := by omega
    rw [h1]
    show ((e.next_sample).2).run (m + b) = (((e.next_sample).2).run m).run b
    exact ih (e.next_sample).2

/-- One more iteration applies `next_sample` to the already-iterated state. -/
lemma run_succ_right (e : ADSREnvelope) (m : ℕ) :
    e.run (m + 1) = ((e.run m).next_sample).2 := by
  rw [run_add e m 1]
  rfl

/-- An Idle envelope is a fixed point of `next_sample`. -/
lemma idle_run {e : ADSREnvelope} (h : e.stage = EnvStage.Idle) (k : ℕ) :
    e.run k = e := by
  induction k with
  | zero => rfl
  | succ m ih =>
    rw [run_succ_right, ih]
    simp [ADSREnvelope.next_sample, h]

/-- A Sustain envelope is a fixed point of `next_sample` (the Sustain branch
returns the sustain constant and mutates nothing). -/
lemma sustain_run {e : ADSREnvelope} (h : e.stage = EnvStage.Sustain) (k : ℕ) :
    e.run k = e := by
  induction k with
  | zero => rfl
  | succ m ih =>
    rw [run_succ_right, ih]
    simp [ADSREnvelope.next_sample, h]

/-- From any Attack state with a positive per-step increment, the envelope
stays in Attack for some positive number of steps and then moves to Decay
with level clamped to exactly 1. -/
lemma attack_progress (e : ADSREnvelope) (hstage : e.stage = EnvStage.Attack)
    (hpos : 0 < 1 / (e.attack * e.sample_rate)) :
    ∃ nA, 0 < nA ∧ (∀ k, k < nA → (e.run k).stage = EnvStage.Attack) ∧
      e.run nA = { e with level := 1, stage := EnvStage.Decay } := by
  have hex : ∃ n : ℕ, 1 ≤ e.level + (n + 1) * (1 / (e.attack * e.sample_rate)) := by
    obtain ⟨n, hn⟩ := Archimedean.arch (1 - e.level) hpos
    rw [nsmul_eq_mul] at hn
    refine ⟨n, ?_⟩
    nlinarith [hpos]
  have hrun : ∀ k, k ≤ Nat.find hex →
      e.run k = { e with level := e.level + k * (1 / (e.attack * e.sample_rate)) } := by
    intro k hk
    induction k with
    | zero =>
      show e = _
      simp
    | succ m ih =>
      have hm := ih (Nat.le_of_succ_le hk)
      have hmin := Nat.find_min hex (Nat.lt_of_succ_le hk)
      rw [run_succ_right, hm]
      simp only [ADSREnvelope.next_sample, hstage]
      rw [if_neg]
      · congr 1
        push_cast
        ring
      · push_cast
        intro hcon
        exact hmin (by nlinarith [hcon])
  refine ⟨Nat.find hex + 1, Nat.succ_pos _, ?_, ?_⟩
  · intro k hk
    rw [hrun k (Nat.lt_succ_iff.1 hk)]
    exact hstage
  · rw [run_succ_right, hrun (Nat.find hex) (le_refl _)]
    simp only [ADSREnvelope.next_sample, hstage]
    rw [if_pos]
    have hspec := Nat.find_spec hex
    nlinarith [hspec]

/-- From any Decay state with a positive per-step decrement, the envelope
stays in Decay for some positive number of steps and then moves to Sustain
with level clamped to exactly the sustain value. -/
lemma decay_progress (e : ADSREnvelope) (hstage : e.stage = EnvStage.Decay)
    (hpos : 0 < (1 - e.sustain) / (e.decay * e.sample_rate)) :
    ∃ nD, 0 < nD ∧ (∀ k, k < nD → (e.run k).stage = EnvStage.Decay) ∧
      e.run nD = { e with level := e.sustain, stage := EnvStage.Sustain } := by
  have hex : ∃ n : ℕ,
      e.level - (n + 1) * ((1 - e.sustain) / (e.decay * e.sample_rate)) ≤ e.sustain := by
    obtain ⟨n, hn⟩ := Archimedean.arch (e.level - e.sustain) hpos
    rw [nsmul_eq_mul] at hn
    refine ⟨n, ?_⟩
    nlinarith [hpos]
  have hrun : ∀ k, k ≤ Nat.find hex →
      e.run k = { e with
        level := e.level - k * ((1 - e.sustain) / (e.decay * e.sample_rate)) } := by
    intro k hk
    induction k with
    | zero =>
      show e = _
      simp
    | succ m ih =>
      have hm := ih (Nat.le_of_succ_le hk)
      have hmin := Nat.find_min hex (Nat.lt_of_succ_le hk)
      rw [run_succ_right, hm]
      simp only [ADSREnvelope.next_sample, hstage]
      rw [if_neg]
      · congr 1
        push_cast
        ring
      · push_cast
        intro hcon
        exact hmin (by nlinarith [hcon])
  refine ⟨Nat.find hex + 1, Nat.succ_pos _, ?_, ?_⟩
  · intro k hk
    rw [hrun k (Nat.lt_succ_iff.1 hk)]
    exact hstage
  · rw [run_succ_right, hrun (Nat.find hex) (le_refl _)]
    simp only [ADSREnvelope.next_sample, hstage]
    rw [if_pos]
    have hspec := Nat.find_spec hex
    nlinarith [hspec]


/-- From any Release state with positive level and positive
`release * sample_rate`, the envelope stays in Release for some positive
number of steps and then reaches Idle with level forced to exactly 0. -/
lemma release_progress (e : ADSREnvelope) (hstage : e.stage = EnvStage.Release)
    (hpos : 0 < e.release * e.sample_rate) (hlev : 0 < e.level) :
    ∃ nR, 0 < nR ∧ (∀ k, k < nR → (e.run k).stage = EnvStage.Release) ∧
      e.run nR = { e with level := 0, stage := EnvStage.Idle } := by
  have hrlt : (1 - 1 / (e.release * e.sample_rate)) < 1 := by
    have : 0 < 1 / (e.release * e.sample_rate) := by positivity
    linarith
  have hex : ∃ n : ℕ,
      e.level * (1 - 1 / (e.release * e.sample_rate)) ^ (n + 1) ≤ 1/1000 := by
    rcases le_or_lt (1 - 1 / (e.release * e.sample_rate)) 0 with hr0 | hr0
    · refine ⟨0, ?_⟩
      have := mul_nonpos_of_nonneg_of_nonpos (le_of_lt hlev) hr0
      rw [pow_one]
      linarith
    · obtain ⟨n, hn⟩ := exists_pow_lt_of_lt_one
        (show 0 < (1/1000) / e.level by positivity) hrlt
      refine ⟨n, ?_⟩
      have h1 : e.level * (1 - 1 / (e.release * e.sample_rate)) ^ n ≤ 1/1000 := by
        rw [lt_div_iff hlev] at hn
        nlinarith [hn]
      have h2 : e.level * (1 - 1 / (e.release * e.sample_rate)) ^ (n + 1)
          ≤ e.level * (1 - 1 / (e.release * e.sample_rate)) ^ n := by
        rw [pow_succ]
        have hnn : 0 ≤ e.level * (1 - 1 / (e.release * e.sample_rate)) ^ n :=
          mul_nonneg (le_of_lt hlev) (pow_nonneg (le_of_lt hr0) n)
        nlinarith [hnn, hrlt]
      linarith
  have hrun : ∀ k, k ≤ Nat.find hex →
      e.run k = { e with
        level := e.level * (1 - 1 / (e.release * e.sample_rate)) ^ k } := by
    intro k hk
    induction k with
    | zero =>
      show e = _
      simp
    | succ m ih =>
      have hm := ih (Nat.le_of_succ_le hk)
      have hmin := Nat.find_min hex (Nat.lt_of_succ_le hk)
      rw [run_succ_right, hm]
      simp only [ADSREnvelope.next_sample, hstage]
      rw [if_neg]
      · congr 1
        rw [pow_succ]
        ring
      · intro hcon
        refine hmin ?_
        calc e.level * (1 - 1 / (e.release * e.sample_rate)) ^ (m + 1)
            = e.level * (1 - 1 / (e.release * e.sample_rate)) ^ m -
              e.level * (1 - 1 / (e.release * e.sample_rate)) ^ m /
                (e.release * e.sample_rate) := by
              rw [pow_succ]; ring
          _ ≤ 1/1000 := hcon
  refine ⟨Nat.find hex + 1, Nat.succ_pos _, ?_, ?_⟩
  · intro k hk
    rw [hrun k (Nat.lt_succ_iff.1 hk)]
    exact hstage
  · rw [run_succ_right, hrun (Nat.find hex) (le_refl _)]
    simp only [ADSREnvelope.next_sample, hstage]
    rw [if_pos]
    have hspec := Nat.find_spec hex
    calc e.level * (1 - 1 / (e.release * e.sample_rate)) ^ Nat.find hex -
          e.level * (1 - 1 / (e.release * e.sample_rate)) ^ Nat.find hex /
            (e.release * e.sample_rate)
        = e.level * (1 - 1 / (e.release * e.sample_rate)) ^ (Nat.find hex + 1) := by
          rw [pow_succ]; ring
      _ ≤ 1/1000 := hspec


/-- One `next_sample` call only ever self-loops or advances the stage. -/
lemma stage_step_forward (e : ADSREnvelope) :
    stageStepOK e.stage ((e.next_sample).2.stage) := by
  rcases hst : e.stage <;>
    simp only [ADSREnvelope.next_sample, hst] <;>
    (try split_ifs) <;>
    simp [stageStepOK]

/-- C4: the envelope stage machine only self-loops or advances forward;
`note_off` sends any (in particular any non-Idle) stage directly to Release;
from Release the transition to Idle happens exactly when the decremented
level crosses the 0.001 threshold, and then the level is forced to exactly
0; and the held-then-released scenario visits exactly
Idle, Attack (nA steps), Decay (nD steps), Sustain (until note-off),
Release (nR steps), Idle (forever, level 0). -/
theorem C4_adsr_stage_progression (sr : ℚ) (hsr : 0 < sr) :
    (∀ e : ADSREnvelope, stageStepOK e.stage ((e.next_sample).2.stage)) ∧
    (∀ e : ADSREnvelope, e.stage ≠ EnvStage.Idle →
      (e.note_off).stage = EnvStage.Release) ∧
    (∀ e : ADSREnvelope, e.stage = EnvStage.Release →
      (((e.next_sample).2.stage = EnvStage.Idle ↔
        e.level - e.level / (e.release * e.sample_rate) ≤ 1/1000) ∧
      ((e.next_sample).2.stage = EnvStage.Idle → (e.next_sample).2.level = 0))) ∧
    ((ADSREnvelope.new sr).stage = EnvStage.Idle ∧
      ((ADSREnvelope.new sr).note_on).stage = EnvStage.Attack) ∧
    (∃ nA nD, 0 < nA ∧ 0 < nD ∧
      (∀ k, k < nA →
        (((ADSREnvelope.new sr).note_on).run k).stage = EnvStage.Attack) ∧
      (∀ k, nA ≤ k → k < nA + nD →
        (((ADSREnvelope.new sr).note_on).run k).stage = EnvStage.Decay) ∧
      (∀ k, nA + nD ≤ k →
        (((ADSREnvelope.new sr).note_on).run k).stage = EnvStage.Sustain) ∧
      (∀ m, nA + nD ≤ m → ∃ nR, 0 < nR ∧
        (∀ k, k < nR →
          (((((ADSREnvelope.new sr).note_on).run m).note_off).run k).stage
            = EnvStage.Release) ∧
        (∀ k, nR ≤ k →
          (((((ADSREnvelope.new sr).note_on).run m).note_off).run k).stage
              = EnvStage.Idle ∧
          (((((ADSREnvelope.new sr).note_on).run m).note_off).run k).level = 0))) := by
  refine ⟨stage_step_forward, fun e _ => rfl, ?_, ⟨rfl, rfl⟩, ?_⟩
  · intro e hstage
    simp only [ADSREnvelope.next_sample, hstage]
    split_ifs with hc
    · exact ⟨Iff.intro (fun _ => hc) (fun _ => rfl), fun _ => rfl⟩
    · exact ⟨Iff.intro (fun hx => nomatch hx) (fun hx => absurd hx hc),
        fun hx => nomatch hx⟩
  · obtain ⟨nA, hnA, hAstage, hAend⟩ :=
      attack_progress ((ADSREnvelope.new sr).note_on) rfl
        (by show 0 < 1 / ((1:ℚ)/100 * sr); positivity)
    obtain ⟨nD, hnD, hDstage, hDend⟩ :=
      decay_progress (((ADSREnvelope.new sr).note_on).run nA)
        (by rw [hAend])
        (by
          rw [hAend]
          show 0 < ((1:ℚ) - 7/10) / (1/10 * sr)
          have h310 : ((1:ℚ) - 7/10) = 3/10 := by norm_num
          rw [h310]
          positivity)
    have he3 : (((ADSREnvelope.new sr).note_on).run nA).run nD =
        (⟨1/100, 1/10, 7/10, 1/5, EnvStage.Sustain, 7/10, sr⟩ : ADSREnvelope) := by
      rw [hDend, hAend]
      rfl
    have hrunS : ∀ j, ((ADSREnvelope.new sr).note_on).run (nA + nD + j) =
        (⟨1/100, 1/10, 7/10, 1/5, EnvStage.Sustain, 7/10, sr⟩ : ADSREnvelope) := by
      intro j
      rw [run_add, run_add, he3]
      exact sustain_run rfl j
    obtain ⟨nR, hnR, hRstage, hRend⟩ :=
      release_progress
        (⟨1/100, 1/10, 7/10, 1/5, EnvStage.Release, 7/10, sr⟩ : ADSREnvelope) rfl
        (by show 0 < (1:ℚ)/5 * sr; positivity)
        (by norm_num)
    refine ⟨nA, nD, hnA, hnD, hAstage, ?_, ?_, ?_⟩
    · intro k hk1 hk2
      obtain ⟨j, rfl⟩ : ∃ j, k = nA + j := ⟨k - nA, by omega⟩
      rw [run_add]
      exact hDstage j (by omega)
    · intro k hk
      obtain ⟨j, rfl⟩ : ∃ j, k = nA + nD + j := ⟨k - (nA + nD), by omega⟩
      rw [hrunS j]
    · intro m hm
      obtain ⟨j, rfl⟩ : ∃ j, m = nA + nD + j := ⟨m - (nA + nD), by omega⟩
      rw [hrunS j]
      have hoff :
          (⟨1/100, 1/10, 7/10, 1/5, EnvStage.Sustain, 7/10, sr⟩ : ADSREnvelope).note_off
            = ⟨1/100, 1/10, 7/10, 1/5, EnvStage.Release, 7/10, sr⟩ := rfl
      rw [hoff]
      refine ⟨nR, hnR, hRstage, ?_⟩
      intro k hk
      obtain ⟨j2, rfl⟩ : ∃ j2, k = nR + j2 := ⟨k - nR, by omega⟩
      rw [run_add, hRend, idle_run rfl j2]
      exact ⟨rfl, rfl⟩


/-- Witness for C4 at sample rate 5. -/
theorem C4_adsr_stage_progression_witness :
    (ADSREnvelope.new 5).stage = EnvStage.Idle ∧
      ((ADSREnvelope.new 5).note_on).stage = EnvStage.Attack :=
  (C4_adsr_stage_progression 5 (by norm_num)).2.2.2.1

end Blight
